import Mathlib

/-!
Shallow embedding of the adbmcp device-bridge server (src/adbmcp.py).

Strings are modelled as `List Char`.  The external `adb` subprocess is
modelled by a `Runner` function mapping a full command line to a
`ProcResult` (captured stdout on success, captured stderr on a non-zero
exit, or an exception message for any other failure).  The XML library
(`xml.etree.ElementTree`) is modelled by an abstract parser
`List Char → Option XNode` together with the element tree type `XNode`;
`ET.fromstring` raising is represented by the parser returning `none`.
Regular-expression calls in the source are embedded operationally, by
functions implementing the leftmost search / non-overlapping scan
semantics of Python `re` for the concrete patterns used.
-/

def strL (s : String) : List Char := s.toList

/-- The single-quote character (used by the element formatter). -/
def quoteCh : Char := Char.ofNat 39

/-- Python `str.strip()`: remove leading and trailing whitespace. -/
def stripL (s : List Char) : List Char :=
  ((s.dropWhile Char.isWhitespace).reverse.dropWhile Char.isWhitespace).reverse

/-- Python `str.split("\n")`. -/
def splitNl : List Char → List (List Char)
  | [] => [[]]
  | '\n' :: cs => [] :: splitNl cs
  | c :: cs =>
    match splitNl cs with
    | [] => [[c]]
    | l :: ls => (c :: l) :: ls

/-- Python `"\n".join`. -/
def joinNl (ls : List (List Char)) : List Char := List.intercalate ['\n'] ls

/-- Python's substring test `pat in s`. -/
def containsTok (pat : List Char) : List Char → Bool
  | [] => pat.isEmpty
  | c :: cs => pat.isPrefixOf (c :: cs) || containsTok pat cs

/-- Outcome of one `subprocess.run` invocation: captured stdout on success,
captured stderr on a non-zero exit (`CalledProcessError`), or the message of
any other exception. -/
inductive ProcResult : Type where
  | ok : List Char → ProcResult
  | fail : List Char → ProcResult
  | exc : List Char → ProcResult

/-- The external process environment: command line to outcome. -/
def Runner : Type := List (List Char) → ProcResult

/-- `run_adb`: command construction (`["adb"] (+ ["-s", serial]) + args`). -/
def buildCmd (args : List (List Char)) (serial : Option (List Char)) : List (List Char) :=
  strL "adb" :: (match serial with | some s => [strL "-s", s] | none => []) ++ args

/-- `run_adb`: returns stdout, or an `"Error: "`/`"Unexpected Error: "` string. -/
def runAdb (runner : Runner) (args : List (List Char)) (serial : Option (List Char)) :
    List Char :=
  match runner (buildCmd args serial) with
  | .ok o => o
  | .fail e => strL "Error: " ++ e
  | .exc m => strL "Unexpected Error: " ++ m

/-! ### Bounds parsing (`re.findall(r"\[(\d+),(\d+)\]", bounds)`) -/

/-- `int()` on a string of decimal digits. -/
def natFromDigits (l : List Char) : Nat :=
  l.foldl (fun a c => 10 * a + (c.toNat - 48)) 0

/-- Python `str(n)` for a natural number. -/
def decimalRepr (n : Nat) : List Char :=
  if n = 0 then ['0'] else ((Nat.digits 10 n).map Nat.digitChar).reverse

/-- One anchored attempt of the pattern `\[(\d+),(\d+)\]`: on success, the two
numbers and the remainder of the text after the match. -/
def matchPair : List Char → Option (Nat × Nat × List Char)
  | [] => none
  | c :: r =>
    if c = '[' then
      let d1 := r.takeWhile Char.isDigit
      match r.dropWhile Char.isDigit with
      | [] => none
      | c2 :: r2 =>
        if c2 = ',' then
          if d1.isEmpty then none
          else
            let d2 := r2.takeWhile Char.isDigit
            match r2.dropWhile Char.isDigit with
            | [] => none
            | c3 :: r4 =>
              if c3 = ']' then
                if d2.isEmpty then none
                else some (natFromDigits d1, natFromDigits d2, r4)
              else none
        else none
    else none

/-- `re.findall` scan: try an anchored match at each position, left to right;
on success continue after the match (non-overlapping).  The fuel argument
(always at least the length of the text) only forces structural recursion. -/
def findAllPairsAux : Nat → List Char → List (Nat × Nat)
  | 0, _ => []
  | _ + 1, [] => []
  | fuel + 1, c :: cs =>
    match matchPair (c :: cs) with
    | some (x, y, rest) => (x, y) :: findAllPairsAux fuel rest
    | none => findAllPairsAux fuel cs

/-- All matches of `\[(\d+),(\d+)\]` in a bounds string. -/
def findAllPairs (s : List Char) : List (Nat × Nat) := findAllPairsAux s.length s

/-- The `center` computation of `_parse_hierarchy`: the midpoint of the two
corners when the bounds string has exactly two bracket pairs, else `none`. -/
def centerOf (bounds : List Char) : Option (Nat × Nat) :=
  match findAllPairs bounds with
  | [(x1, y1), (x2, y2)] => some ((x1 + x2) / 2, (y1 + y2) / 2)
  | _ => none

/-- Rendering of one `[x,y]` bracket pair followed by further text. -/
def brk (x y : Nat) (rest : List Char) : List Char :=
  '[' :: (decimalRepr x ++ ',' :: (decimalRepr y ++ ']' :: rest))

/-- A canonical well-formed bounds string `[x1,y1][x2,y2]`. -/
def renderBounds (x1 y1 x2 y2 : Nat) : List Char := brk x1 y1 (brk x2 y2 [])

/-! ### The element tree and `_parse_hierarchy` -/

/-- A parsed XML element: tag, attributes, children. -/
inductive XNode : Type where
  | mk : List Char → List (List Char × List Char) → List XNode → XNode

def XNode.tag : XNode → List Char
  | .mk t _ _ => t

def XNode.attrs : XNode → List (List Char × List Char)
  | .mk _ a _ => a

def XNode.children : XNode → List XNode
  | .mk _ _ ch => ch

/-- `node.get(key)`: attribute lookup. -/
def attrOf (n : XNode) (k : List Char) : Option (List Char) :=
  List.lookup k n.attrs

/-- `node.get(key, "")`. -/
def attrD (n : XNode) (k : List Char) : List Char := (attrOf n k).getD []

/-- Depth-first pre-order listing of all elements of a forest (each element
followed by its descendants); `root.findall(".//node")` walks the forest of
the root's children in this order. -/
def preorderF : List XNode → List XNode
  | [] => []
  | .mk t a ch :: rest => .mk t a ch :: (preorderF ch ++ preorderF rest)

def nodeTok : List Char := strL "node"

/-- One element record extracted by `_parse_hierarchy`. -/
structure Elem : Type where
  text : List Char
  contentDesc : List Char
  resourceId : List Char
  className : List Char
  pkgName : List Char
  clickable : Bool
  bounds : List Char
  center : Option (Nat × Nat)
deriving DecidableEq

/-- The record built from one `node` element (dictionary literal of
`_parse_hierarchy`). -/
def elemOfNode (n : XNode) : Elem :=
  let boundsStr := attrD n (strL "bounds")
  { text := stripL (attrD n (strL "text"))
  , contentDesc := stripL (attrD n (strL "content-desc"))
  , resourceId := stripL (attrD n (strL "resource-id"))
  , className := stripL (attrD n (strL "class"))
  , pkgName := stripL (attrD n (strL "package"))
  , clickable := attrOf n (strL "clickable") == some (strL "true")
  , bounds := boundsStr
  , center := centerOf boundsStr }

/-- `root.findall(".//node")` mapped through the record constructor: the body
of `_parse_hierarchy` after a successful parse. -/
def parseHierarchyTree (root : XNode) : List Elem :=
  ((preorderF root.children).filter (fun n => n.tag == nodeTok)).map elemOfNode

/-- `_parse_hierarchy`: `ET.fromstring` guarded by `try/except` — a parse
failure yields the empty record list. -/
def parseHierarchyStr (parser : List Char → Option XNode) (xmlData : List Char) : List Elem :=
  match parser xmlData with
  | none => []
  | some root => parseHierarchyTree root

/-- Spec-side definition: the `node`-tagged elements found anywhere in a
forest, in document order, gathered by a direct recursion. -/
def collectF : List XNode → List XNode
  | [] => []
  | .mk t a ch :: rest =>
    (if t = nodeTok then [XNode.mk t a ch] else []) ++ (collectF ch ++ collectF rest)

/-! ### Presentation filter and report (`get_uilayout`, lines 108-121) -/

/-- The inclusion test of the presentation loop: at least one of `text`,
`content-desc`, `resource-id` is non-empty (Python string truthiness). -/
def passFilter (e : Elem) : Bool :=
  !e.text.isEmpty || !e.contentDesc.isEmpty || !e.resourceId.isEmpty

/-- Python `str` of a `bool` (`True` / `False`). -/
def pyBool (b : Bool) : List Char := if b then strL "True" else strL "False"

/-- The multi-line block printed for one included element. -/
def renderElem (e : Elem) : List Char :=
  List.intercalate ['\n'] (
    [strL "Element (Clickable: " ++ pyBool e.clickable ++ strL "):"]
    ++ (if e.text.isEmpty then [] else [strL "  Text: " ++ quoteCh :: (e.text ++ [quoteCh])])
    ++ (if e.contentDesc.isEmpty then []
        else [strL "  Description: " ++ quoteCh :: (e.contentDesc ++ [quoteCh])])
    ++ (if e.resourceId.isEmpty then []
        else [strL "  Resource ID: " ++ quoteCh :: (e.resourceId ++ [quoteCh])])
    ++ [strL "  Bounds: " ++ e.bounds]
    ++ (match e.center with
        | none => []
        | some (x, y) =>
          [strL "  Center: (" ++ decimalRepr x ++ strL ", " ++ decimalRepr y ++ strL ")"]))

/-- The `result` accumulation loop of `get_uilayout`. -/
def buildBlocks : List Elem → List (List Char)
  | [] => []
  | e :: rest => if passFilter e then renderElem e :: buildBlocks rest else buildBlocks rest

/-- The final report: the sentinel when no element qualified, else the blocks
joined by blank lines. -/
def report (els : List Elem) : List Char :=
  let blocks := buildBlocks els
  if blocks.isEmpty then strL "No meaningful elements found."
  else List.intercalate (strL "\n\n") blocks

/-! ### XML cleanup (`re.search(r"<\?xml.*?>.*?</hierarchy>", s, re.DOTALL)`) -/

def xmlTok : List Char := strL "<?xml"

def hierTok : List Char := strL "</hierarchy>"

/-- Split a text around the first occurrence of `pat`:
`splitAtSub pat s = some (b, a)` with `s = b ++ pat ++ a` when `pat` occurs. -/
def splitAtSub (pat : List Char) : List Char → Option (List Char × List Char)
  | [] => if pat.isEmpty then some ([], []) else none
  | c :: cs =>
    if pat.isPrefixOf (c :: cs) then some ([], (c :: cs).drop pat.length)
    else
      match splitAtSub pat cs with
      | some (b, a) => some (c :: b, a)
      | none => none

/-- The lazy tail of the pattern, applied after the `<?xml` literal: `.*?>`
stops at the first `>`, then `.*?</hierarchy>` stops at the first
`</hierarchy>`.  Returns the matched substring with the `<?xml` prepended. -/
def matchTail (r1 : List Char) : Option (List Char) :=
  match splitAtSub ['>'] r1 with
  | some (m1, r2) =>
    match splitAtSub hierTok r2 with
    | some (m2, _) => some (xmlTok ++ m1 ++ '>' :: (m2 ++ hierTok))
    | none => none
  | none => none

/-- One anchored attempt of `<\?xml.*?>.*?</hierarchy>` (DOTALL): the literal
`<?xml` (five characters), then the lazy tail. -/
def tryMatchAt (t : List Char) : Option (List Char) :=
  if xmlTok.isPrefixOf t then matchTail (t.drop 5) else none

/-- `re.search`: the anchored attempt at each position, left to right. -/
def reSearch : List Char → Option (List Char)
  | [] => none
  | c :: cs =>
    match tryMatchAt (c :: cs) with
    | some m => some m
    | none => reSearch cs

/-- Lines 101-104 of `get_uilayout`: replace the dump by the matched substring
when the pattern occurs, else keep the raw text. -/
def cleanXml (s : List Char) : List Char := (reSearch s).getD s

/-- Spec-side definition of the (lazy) bounded substring: take the text from
the first `<?xml` onward, locate the first `>` after that declaration, then
the first `</hierarchy>` after that `>`; the bounded substring runs from the
`<?xml` to the end of that `</hierarchy>`.  `none` when no such bounded
substring exists. -/
def lazyExtractSpec (s : List Char) : Option (List Char) :=
  match splitAtSub xmlTok s with
  | some (_, r1) => matchTail r1
  | none => none

/-! ### UI dump retrieval (`get_uilayout`, lines 95-99) -/

def dumpTtyArgs : List (List Char) :=
  [strL "shell", strL "uiautomator", strL "dump", strL "/dev/tty"]

def dumpFileArgs : List (List Char) :=
  [strL "shell", strL "uiautomator", strL "dump", strL "/sdcard/view.xml"]

def catViewArgs : List (List Char) := [strL "shell", strL "cat", strL "/sdcard/view.xml"]

def markerTok : List Char := strL "UI hierchary dumped to:"

/-- The retrieval step of `get_uilayout`, with the sequence of issued argument
lists recorded alongside the text used as the dump. -/
def uiDumpRetrieve (runner : Runner) (serial : Option (List Char)) :
    List (List (List Char)) × List Char :=
  let xmlData := runAdb runner dumpTtyArgs serial
  if !containsTok markerTok xmlData && !xmlTok.isPrefixOf (stripL xmlData) then
    let _o1 := runAdb runner dumpFileArgs serial
    ([dumpTtyArgs, dumpFileArgs, catViewArgs], runAdb runner catViewArgs serial)
  else ([dumpTtyArgs], xmlData)

/-- `get_uilayout`: retrieval, cleanup, parse, filter and format. -/
def getUilayout (parser : List Char → Option XNode) (runner : Runner)
    (serial : Option (List Char)) : List Char :=
  report (parseHierarchyStr parser (cleanXml (uiDumpRetrieve runner serial).2))

/-! ### `get_packages` -/

def pmListArgs : List (List Char) := [strL "shell", strL "pm", strL "list", strL "packages"]

/-- `line.replace("package:", "")`: delete every occurrence of `package:`,
scanning left to right. -/
def replacePkg : List Char → List Char
  | 'p' :: 'a' :: 'c' :: 'k' :: 'a' :: 'g' :: 'e' :: ':' :: rest => replacePkg rest
  | c :: cs => c :: replacePkg cs
  | [] => []

/-- `get_packages`: propagate outputs starting with `"Error"` verbatim, else
keep the `package:`-lines, cleaned, joined by newlines. -/
def getPackages (runner : Runner) (serial : Option (List Char)) : List Char :=
  let output := runAdb runner pmListArgs serial
  if (strL "Error").isPrefixOf output then output
  else
    joinNl (((splitNl output).filter (fun l => (strL "package:").isPrefixOf l)).map
      (fun l => stripL (replacePkg l)))

/-- Spec-side definition following the original claim's words: keep the lines
starting with `package:` and remove that eight-character prefix, nothing
else. -/
def stripPkgHeaderSpec (output : List Char) : List Char :=
  joinNl (((splitNl output).filter (fun l => (strL "package:").isPrefixOf l)).map
    (fun l => l.drop 8))

/-! ### Device-action operations -/

/-- Python `str()` of an integer. -/
def intStr (i : Int) : List Char := strL (toString i)

/-- `text.replace(" ", "%s")` of `input_text`. -/
def escapeSpaces : List Char → List Char
  | [] => []
  | ' ' :: r => '%' :: 's' :: escapeSpaces r
  | c :: r => c :: escapeSpaces r

/-- `touch`: issues the tap, discards its output, returns the fixed message. -/
def touch (runner : Runner) (x y : Int) (serial : Option (List Char)) :
    List (List (List Char)) × List Char :=
  let args := [strL "shell", strL "input", strL "tap", intStr x, intStr y]
  let _o1 := runAdb runner args serial
  ([args], strL "Touch at (" ++ intStr x ++ strL ", " ++ intStr y ++ strL ")")

/-- `swipe`. -/
def swipe (runner : Runner) (x1 y1 x2 y2 durationMs : Int) (serial : Option (List Char)) :
    List (List (List Char)) × List Char :=
  let args := [strL "shell", strL "input", strL "swipe",
    intStr x1, intStr y1, intStr x2, intStr y2, intStr durationMs]
  let _o1 := runAdb runner args serial
  ([args], strL "Swipe from (" ++ intStr x1 ++ strL ", " ++ intStr y1 ++ strL ") to ("
    ++ intStr x2 ++ strL ", " ++ intStr y2 ++ strL ")")

/-- `launch_app`. -/
def launchApp (runner : Runner) (packageName : List Char) (activity : Option (List Char))
    (serial : Option (List Char)) : List (List Char) × List Char :=
  match activity with
  | some act =>
    let args := [strL "shell", strL "am", strL "start", strL "-n",
      packageName ++ '/' :: act]
    let _o1 := runAdb runner args serial
    (args, strL "Launched " ++ packageName)
  | none =>
    let args := [strL "shell", strL "monkey", strL "-p", packageName,
      strL "-c", strL "android.intent.category.LAUNCHER", strL "1"]
    let _o1 := runAdb runner args serial
    (args, strL "Launched " ++ packageName)

/-- `stop_app`. -/
def stopApp (runner : Runner) (packageName : List Char) (serial : Option (List Char)) :
    List (List Char) × List Char :=
  let args := [strL "shell", strL "am", strL "force-stop", packageName]
  let _o1 := runAdb runner args serial
  (args, strL "Stopped " ++ packageName)

/-- `input_text`. -/
def inputText (runner : Runner) (text : List Char) (serial : Option (List Char)) :
    List (List Char) × List Char :=
  let args := [strL "shell", strL "input", strL "text", escapeSpaces text]
  let _o1 := runAdb runner args serial
  (args, strL "Typed: " ++ text)

/-- `take_screenshot`: capture to a fixed remote path, pull it, report the
local absolute path (`os.path.abspath` is the environment parameter). -/
def takeScreenshot (runner : Runner) (abspath : List Char → List Char)
    (filename : List Char) (serial : Option (List Char)) :
    List (List (List Char)) × List Char :=
  let remotePath := strL "/sdcard/mcp_screenshot.png"
  let capArgs := [strL "shell", strL "screencap", strL "-p", remotePath]
  let pullArgs := [strL "pull", remotePath, filename]
  let _o1 := runAdb runner capArgs serial
  let _o2 := runAdb runner pullArgs serial
  ([capArgs, pullArgs], strL "Screenshot saved to: " ++ abspath filename)

/-! ## Helper lemmas -/

theorem isPrefixOf_iff_append (p : List Char) : ∀ s : List Char,
    p.isPrefixOf s = true ↔ ∃ r, s = p ++ r := by
  induction p with
  | nil => intro s; simp [List.isPrefixOf]
  | cons a as ih =>
    intro s
    cases s with
    | nil => simp [List.isPrefixOf]
    | cons b bs =>
      simp only [List.isPrefixOf, Bool.and_eq_true, beq_iff_eq, ih]
      constructor
      · rintro ⟨hab, r, hr⟩
        exact ⟨r, by simp [hab, hr]⟩
      · rintro ⟨r, hr⟩
        injection hr with h1 h2
        exact ⟨h1.symm, r, h2⟩

theorem isPrefixOf_append_self (p r : List Char) : p.isPrefixOf (p ++ r) = true :=
  (isPrefixOf_iff_append p (p ++ r)).mpr ⟨r, rfl⟩

theorem containsTok_iff (pat : List Char) : ∀ s : List Char,
    containsTok pat s = true ↔ ∃ a b, a ++ pat ++ b = s := by
  intro s
  induction s with
  | nil =>
    simp only [containsTok, List.isEmpty_iff]
    constructor
    · rintro rfl
      exact ⟨[], [], rfl⟩
    · rintro ⟨a, b, h⟩
      rcases List.append_eq_nil.mp h with ⟨h1, h2⟩
      exact (List.append_eq_nil.mp h1).2
  | cons c cs ih =>
    simp only [containsTok, Bool.or_eq_true, isPrefixOf_iff_append, ih]
    constructor
    · rintro (⟨r, hr⟩ | ⟨a, b, hab⟩)
      · exact ⟨[], r, by rw [List.nil_append]; exact hr.symm⟩
      · refine ⟨c :: a, b, ?_⟩
        rw [List.cons_append, List.cons_append, hab]
    · rintro ⟨a, b, hab⟩
      cases a with
      | nil =>
        refine Or.inl ⟨b, ?_⟩
        rw [List.nil_append] at hab
        exact hab.symm
      | cons x xs =>
        rw [List.cons_append, List.cons_append] at hab
        injection hab with h1 h2
        exact Or.inr ⟨xs, b, h2⟩

theorem buildBlocks_eq_filter_map (els : List Elem) :
    buildBlocks els = (els.filter passFilter).map renderElem := by
  induction els with
  | nil => rfl
  | cons e rest ih =>
    by_cases h : passFilter e = true
    · simp [buildBlocks, List.filter_cons, h, ih]
    · rw [Bool.not_eq_true] at h
      simp [buildBlocks, List.filter_cons, h, ih]

/-! ## Claim theorems -/

/-- C7: the Command Executor returns captured stdout when the process
succeeds, an `"Error:"`-prefixed string (the prefix followed by the captured
error text) when the process exits non-zero, and an `"Unexpected
Error:"`-prefixed string on any other failure; being a total function it never
raises to its caller. -/
theorem C7_executor_result_shapes (args : List (List Char)) (serial : Option (List Char))
    (o e m : List Char) :
    runAdb (fun _ => ProcResult.ok o) args serial = o
    ∧ runAdb (fun _ => ProcResult.fail e) args serial = strL "Error: " ++ e
    ∧ (strL "Error:").isPrefixOf (runAdb (fun _ => ProcResult.fail e) args serial) = true
    ∧ runAdb (fun _ => ProcResult.exc m) args serial = strL "Unexpected Error: " ++ m
    ∧ (strL "Unexpected Error:").isPrefixOf
        (runAdb (fun _ => ProcResult.exc m) args serial) = true := by
  refine ⟨rfl, rfl, ?_, rfl, ?_⟩
  · show (strL "Error:").isPrefixOf (strL "Error:" ++ (' ' :: e)) = true
    exact isPrefixOf_append_self _ _
  · show (strL "Unexpected Error:").isPrefixOf (strL "Unexpected Error:" ++ (' ' :: m)) = true
    exact isPrefixOf_append_self _ _

/-- C9: each device-action operation issues its bridge command but returns its
fixed success-formatted message unconditionally — the right-hand sides do not
depend on `runner`, so the message is the same even when the bridge call
produced an `"Error:"` or `"Unexpected Error:"` string. -/
theorem C9_actions_discard_executor_result (runner : Runner) (x y x2 y2 dur : Int)
    (serial : Option (List Char)) (packageName act text filename : List Char)
    (abspath : List Char → List Char) :
    touch runner x y serial =
      ([[strL "shell", strL "input", strL "tap", intStr x, intStr y]],
        strL "Touch at (" ++ intStr x ++ strL ", " ++ intStr y ++ strL ")")
    ∧ swipe runner x y x2 y2 dur serial =
      ([[strL "shell", strL "input", strL "swipe", intStr x, intStr y,
          intStr x2, intStr y2, intStr dur]],
        strL "Swipe from (" ++ intStr x ++ strL ", " ++ intStr y ++ strL ") to ("
          ++ intStr x2 ++ strL ", " ++ intStr y2 ++ strL ")")
    ∧ launchApp runner packageName (some act) serial =
      ([strL "shell", strL "am", strL "start", strL "-n", packageName ++ '/' :: act],
        strL "Launched " ++ packageName)
    ∧ launchApp runner packageName none serial =
      ([strL "shell", strL "monkey", strL "-p", packageName,
          strL "-c", strL "android.intent.category.LAUNCHER", strL "1"],
        strL "Launched " ++ packageName)
    ∧ stopApp runner packageName serial =
      ([strL "shell", strL "am", strL "force-stop", packageName],
        strL "Stopped " ++ packageName)
    ∧ inputText runner text serial =
      ([strL "shell", strL "input", strL "text", escapeSpaces text],
        strL "Typed: " ++ text)
    ∧ takeScreenshot runner abspath filename serial =
      ([[strL "shell", strL "screencap", strL "-p", strL "/sdcard/mcp_screenshot.png"],
          [strL "pull", strL "/sdcard/mcp_screenshot.png", filename]],
        strL "Screenshot saved to: " ++ abspath filename) :=
  ⟨rfl, rfl, rfl, rfl, rfl, rfl, rfl⟩

/-- C4: when the underlying XML parser rejects the input (the model of
`ET.fromstring` raising on malformed XML), the hierarchy extractor returns the
empty record list; the failure is absorbed, not propagated. -/
theorem C4_malformed_xml_empty (parser : List Char → Option XNode) (s : List Char)
    (h : parser s = none) : parseHierarchyStr parser s = [] := by
  simp [parseHierarchyStr, h]

theorem C4_malformed_xml_empty_w :
    parseHierarchyStr (fun _ => none) (strL "<not-xml") = [] :=
  C4_malformed_xml_empty (fun _ => none) (strL "<not-xml") rfl

/-- C5: the presentation loop keeps exactly the records passing the filter (in
order), and the filter accepts a record iff at least one of `text`,
`content-desc`, `resource-id` is non-empty — records with all three empty are
excluded whatever their `clickable` flag (the filter never reads it). -/
theorem C5_presentation_filter (els : List Elem) :
    buildBlocks els = (els.filter passFilter).map renderElem
    ∧ (∀ e : Elem, passFilter e = true ↔
        (e.text ≠ [] ∨ e.contentDesc ≠ [] ∨ e.resourceId ≠ [])) := by
  refine ⟨buildBlocks_eq_filter_map els, ?_⟩
  intro e
  simp [passFilter, List.isEmpty_iff, or_assoc]

/-- C6: whenever no extracted element passes the presentation filter (in
particular for an empty or attribute-free hierarchy, or a malformed dump,
where the extractor yields no records at all), `get_uilayout` returns exactly
the sentinel string. -/
theorem C6_sentinel_report (parser : List Char → Option XNode) (runner : Runner)
    (serial : Option (List Char))
    (h : (parseHierarchyStr parser (cleanXml (uiDumpRetrieve runner serial).2)).filter
        passFilter = []) :
    getUilayout parser runner serial = strL "No meaningful elements found." := by
  unfold getUilayout report
  rw [buildBlocks_eq_filter_map, h]
  rfl

theorem C6_sentinel_report_w :
    getUilayout (fun _ => none) (fun _ => ProcResult.ok (strL "junk")) none =
      strL "No meaningful elements found." :=
  C6_sentinel_report (fun _ => none) (fun _ => ProcResult.ok (strL "junk")) none (by decide)

/-! ## Digit and bounds-scan lemmas -/

theorem digitChar_isDigit : ∀ d : Nat, d < 10 → (Nat.digitChar d).isDigit = true := by decide

theorem digitChar_toNat : ∀ d : Nat, d < 10 → (Nat.digitChar d).toNat = 48 + d := by decide

theorem decimalRepr_all_digits (n : Nat) : ∀ c ∈ decimalRepr n, c.isDigit = true := by
  intro c hc
  unfold decimalRepr at hc
  by_cases h : n = 0
  · rw [if_pos h] at hc
    simp only [List.mem_singleton] at hc
    rw [hc]
    decide
  · rw [if_neg h] at hc
    rw [List.mem_reverse, List.mem_map] at hc
    obtain ⟨d, hd, rfl⟩ := hc
    exact digitChar_isDigit d (Nat.digits_lt_base' hd)

theorem decimalRepr_ne_nil (n : Nat) : decimalRepr n ≠ [] := by
  unfold decimalRepr
  by_cases h : n = 0
  · rw [if_pos h]; simp
  · rw [if_neg h]
    simp [Nat.digits_ne_nil_iff_ne_zero.mpr h]

theorem isEmpty_false_of_ne_nil {l : List Char} (h : l ≠ []) : l.isEmpty = false := by
  cases l with
  | nil => exact absurd rfl h
  | cons a as => rfl

theorem foldl_digit_chars : ∀ l : List Nat, (∀ d ∈ l, d < 10) → ∀ acc : Nat,
    ((l.map Nat.digitChar).reverse).foldl (fun a c => 10 * a + (c.toNat - 48)) acc
      = acc * 10 ^ l.length + Nat.ofDigits 10 l := by
  intro l
  induction l with
  | nil => intro _ acc; simp [Nat.ofDigits_nil]
  | cons d t ih =>
    intro hl acc
    have hd : d < 10 := hl d (List.mem_cons_self d t)
    have ht : ∀ x ∈ t, x < 10 := fun x hx => hl x (List.mem_cons_of_mem d hx)
    rw [List.map_cons, List.reverse_cons, List.foldl_append, ih ht acc]
    simp only [List.foldl_cons, List.foldl_nil]
    rw [digitChar_toNat d hd, Nat.add_sub_cancel_left, Nat.ofDigits_cons,
      List.length_cons, pow_succ]
    ring

theorem natFromDigits_decimalRepr (n : Nat) : natFromDigits (decimalRepr n) = n := by
  unfold natFromDigits decimalRepr
  by_cases h : n = 0
  · rw [if_pos h, h]; rfl
  · rw [if_neg h,
      foldl_digit_chars (Nat.digits 10 n) (fun d hd => Nat.digits_lt_base' hd) 0]
    simp [Nat.ofDigits_digits]

theorem takeWhile_digits : ∀ d r : List Char, (∀ c ∈ d, c.isDigit = true) →
    (∀ c cs, r = c :: cs → c.isDigit = false) →
    (d ++ r).takeWhile Char.isDigit = d ∧ (d ++ r).dropWhile Char.isDigit = r := by
  intro d
  induction d with
  | nil =>
    intro r _ hr
    cases r with
    | nil => exact ⟨rfl, rfl⟩
    | cons c cs =>
      have := hr c cs rfl
      simp [List.takeWhile_cons, List.dropWhile_cons, this]
  | cons x d' ih =>
    intro r hd hr
    have hx : x.isDigit = true := hd x (List.mem_cons_self x d')
    have hrec := ih r (fun c hc => hd c (List.mem_cons_of_mem x hc)) hr
    simp [List.takeWhile_cons, List.dropWhile_cons, hx, hrec.1, hrec.2]

theorem matchPair_brk (x y : Nat) (rest : List Char) :
    matchPair ('[' :: (decimalRepr x ++ ',' :: (decimalRepr y ++ ']' :: rest)))
      = some (x, y, rest) := by
  have h1 := takeWhile_digits (decimalRepr x) (',' :: (decimalRepr y ++ ']' :: rest))
    (decimalRepr_all_digits x)
    (by intro c cs hc; injection hc with hc1 hc2; rw [← hc1]; decide)
  have h2 := takeWhile_digits (decimalRepr y) (']' :: rest)
    (decimalRepr_all_digits y)
    (by intro c cs hc; injection hc with hc1 hc2; rw [← hc1]; decide)
  simp [matchPair, h1.1, h1.2, h2.1, h2.2,
    isEmpty_false_of_ne_nil (decimalRepr_ne_nil x),
    isEmpty_false_of_ne_nil (decimalRepr_ne_nil y),
    natFromDigits_decimalRepr]

theorem matchPair_some_length : ∀ (s : List Char) (x y : Nat) (rest : List Char),
    matchPair s = some (x, y, rest) → rest.length < s.length := by
  intro s x y rest h
  cases s with
  | nil => exact Option.noConfusion h
  | cons c r =>
    simp only [matchPair] at h
    split at h <;> try exact Option.noConfusion h
    split at h <;> try exact Option.noConfusion h
    rename_i hc c2 r2 heq1
    split at h <;> try exact Option.noConfusion h
    split at h <;> try exact Option.noConfusion h
    split at h <;> try exact Option.noConfusion h
    rename_i hc2 hd1 c3 r4 heq2
    split at h <;> try exact Option.noConfusion h
    split at h <;> try exact Option.noConfusion h
    simp only [Option.some.injEq, Prod.mk.injEq] at h
    obtain ⟨-, -, hrest⟩ := h
    subst hrest
    have hs1 : c2 :: r2 <:+ r := heq1 ▸ List.dropWhile_suffix Char.isDigit
    have hl1 : r2.length + 1 ≤ r.length := by simpa using hs1.length_le
    have hs2 : c3 :: r4 <:+ r2 := heq2 ▸ List.dropWhile_suffix Char.isDigit
    have hl2 : r4.length + 1 ≤ r2.length := by simpa using hs2.length_le
    simp only [List.length_cons]
    omega

theorem findAllPairsAux_adequate : ∀ f1 f2 : Nat, ∀ s : List Char,
    s.length ≤ f1 → s.length ≤ f2 → findAllPairsAux f1 s = findAllPairsAux f2 s := by
  intro f1
  induction f1 with
  | zero =>
    intro f2 s h1 h2
    have hs : s = [] := List.length_eq_zero.mp (Nat.le_zero.mp h1)
    subst hs
    cases f2 <;> rfl
  | succ f1 ih =>
    intro f2 s h1 h2
    cases s with
    | nil => cases f2 <;> rfl
    | cons c cs =>
      cases f2 with
      | zero => simp at h2
      | succ f2 =>
        simp only [findAllPairsAux]
        simp only [List.length_cons] at h1 h2
        cases hm : matchPair (c :: cs) with
        | none =>
          show findAllPairsAux f1 cs = findAllPairsAux f2 cs
          exact ih f2 cs (by omega) (by omega)
        | some xyr =>
          obtain ⟨x, y, rest⟩ := xyr
          have hl := matchPair_some_length _ _ _ _ hm
          simp only [List.length_cons] at hl
          show (x, y) :: findAllPairsAux f1 rest = (x, y) :: findAllPairsAux f2 rest
          rw [ih f2 rest (by omega) (by omega)]

theorem findAllPairs_cons_some (c : Char) (cs : List Char) (x y : Nat) (rest : List Char)
    (h : matchPair (c :: cs) = some (x, y, rest)) :
    findAllPairs (c :: cs) = (x, y) :: findAllPairs rest := by
  unfold findAllPairs
  rw [List.length_cons]
  simp only [findAllPairsAux]
  rw [h]
  have hl := matchPair_some_length _ _ _ _ h
  simp only [List.length_cons] at hl
  show (x, y) :: findAllPairsAux cs.length rest = (x, y) :: findAllPairsAux rest.length rest
  rw [findAllPairsAux_adequate cs.length rest.length rest (by omega) (le_refl _)]

theorem findAllPairs_cons_none (c : Char) (cs : List Char)
    (h : matchPair (c :: cs) = none) :
    findAllPairs (c :: cs) = findAllPairs cs := by
  unfold findAllPairs
  rw [List.length_cons]
  simp only [findAllPairsAux]
  rw [h]

theorem isDigit_ne_bracket {c : Char} (h : c.isDigit = true) : c ≠ '[' := by
  intro hc
  rw [hc] at h
  exact absurd h (by decide)

theorem findAllPairs_skip : ∀ d : List Char, (∀ c ∈ d, c ≠ '[') → ∀ rest : List Char,
    findAllPairs (d ++ rest) = findAllPairs rest := by
  intro d
  induction d with
  | nil => intro _ rest; rfl
  | cons c d' ih =>
    intro hd rest
    have hc : c ≠ '[' := hd c (List.mem_cons_self c d')
    have hm : matchPair (c :: (d' ++ rest)) = none := by
      simp only [matchPair]
      rw [if_neg hc]
    rw [List.cons_append, findAllPairs_cons_none _ _ hm]
    exact ih (fun a ha => hd a (List.mem_cons_of_mem c ha)) rest

theorem findAllPairs_renderBounds (x1 y1 x2 y2 : Nat) :
    findAllPairs (renderBounds x1 y1 x2 y2) = [(x1, y1), (x2, y2)] := by
  unfold renderBounds brk
  rw [findAllPairs_cons_some _ _ _ _ _ (matchPair_brk x1 y1 _),
    findAllPairs_cons_some _ _ _ _ _ (matchPair_brk x2 y2 [])]
  rfl

/-- C2: when the bounds string has exactly two `[int,int]` bracket pairs the
center is the floor-divided midpoint of the two corners; with any other number
of bracket pairs there is no center and no error; and every canonically
rendered `[x1,y1][x2,y2]` string indeed yields the midpoint. -/
theorem C2_center_midpoint (s t : List Char) (x1 y1 x2 y2 : Nat)
    (h1 : findAllPairs s = [(x1, y1), (x2, y2)])
    (h2 : (findAllPairs t).length ≠ 2) :
    centerOf s = some ((x1 + x2) / 2, (y1 + y2) / 2)
    ∧ centerOf t = none
    ∧ centerOf (renderBounds x1 y1 x2 y2) = some ((x1 + x2) / 2, (y1 + y2) / 2) := by
  refine ⟨by unfold centerOf; rw [h1], ?_, by unfold centerOf; rw [findAllPairs_renderBounds]⟩
  have key : ∀ l : List (Nat × Nat), l.length ≠ 2 →
      (match l with
       | [(a1, b1), (a2, b2)] => some ((a1 + a2) / 2, (b1 + b2) / 2)
       | _ => none) = none := by
    intro l hl
    match l with
    | [] => rfl
    | [p] => rfl
    | [(a1, b1), (a2, b2)] => exact absurd rfl hl
    | p :: q :: r :: rest => rfl
  unfold centerOf
  exact key (findAllPairs t) h2

theorem C2_center_midpoint_w :
    centerOf (renderBounds 1 2 3 6) = some ((1 + 3) / 2, (2 + 6) / 2)
    ∧ centerOf (strL "zz") = none
    ∧ centerOf (renderBounds 1 2 3 6) = some ((1 + 3) / 2, (2 + 6) / 2) :=
  C2_center_midpoint (renderBounds 1 2 3 6) (strL "zz") 1 2 3 6
    (findAllPairs_renderBounds 1 2 3 6) (by decide)

/-! ## Document-order extraction lemmas -/

theorem filter_preorderF_eq_collectF : ∀ f : List XNode,
    (preorderF f).filter (fun n => n.tag == nodeTok) = collectF f := by
  intro f
  induction f using preorderF.induct with
  | case1 => simp [preorderF, collectF]
  | case2 t a ch rest ih1 ih2 =>
    by_cases h : t = nodeTok
    · have hp : ((XNode.mk t a ch).tag == nodeTok) = true := by simp [XNode.tag, h]
      simp [preorderF, collectF, List.filter_cons, List.filter_append, hp, h, ih1, ih2]
      try simp [XNode.tag]
    · have hp : ((XNode.mk t a ch).tag == nodeTok) = false := by simp [XNode.tag, h]
      simp [preorderF, collectF, List.filter_cons, List.filter_append, hp, h, ih1, ih2]
      try simp [XNode.tag]

/-- C3: for a hierarchy document (a root not itself tagged `node`), the
extractor returns exactly the `node` elements found anywhere in the document,
one record each, in depth-first pre-order document order; a record carries the
trimmed, default-empty string attributes, and its clickable flag is true iff
the raw attribute value equals the literal string `true`. -/
theorem C3_records_in_document_order (root n : XNode) (h : root.tag ≠ nodeTok) :
    parseHierarchyTree root = (collectF [root]).map elemOfNode
    ∧ (parseHierarchyTree root).length = (collectF [root]).length
    ∧ ((elemOfNode n).clickable = true ↔ attrOf n (strL "clickable") = some (strL "true"))
    ∧ (elemOfNode n).text = stripL (attrD n (strL "text"))
    ∧ (attrOf n (strL "text") = none → (elemOfNode n).text = []) := by
  obtain ⟨t, a, ch⟩ := root
  have ht : t ≠ nodeTok := by simpa [XNode.tag] using h
  have h1 : parseHierarchyTree (XNode.mk t a ch)
      = (collectF [XNode.mk t a ch]).map elemOfNode := by
    simp [parseHierarchyTree, XNode.children, filter_preorderF_eq_collectF, collectF, ht]
  refine ⟨h1, by rw [h1, List.length_map], ?_, rfl, ?_⟩
  · simp [elemOfNode]
  · intro h0
    simp [elemOfNode, attrD, h0, stripL]

theorem C3_records_in_document_order_w :
    parseHierarchyTree (XNode.mk (strL "hierarchy") []
        [XNode.mk (strL "node") [(strL "clickable", strL "true")] []])
      = (collectF [XNode.mk (strL "hierarchy") []
          [XNode.mk (strL "node") [(strL "clickable", strL "true")] []]]).map elemOfNode
    ∧ (parseHierarchyTree (XNode.mk (strL "hierarchy") []
        [XNode.mk (strL "node") [(strL "clickable", strL "true")] []])).length
      = (collectF [XNode.mk (strL "hierarchy") []
          [XNode.mk (strL "node") [(strL "clickable", strL "true")] []]]).length
    ∧ ((elemOfNode (XNode.mk (strL "node") [(strL "clickable", strL "true")] [])).clickable
          = true
        ↔ attrOf (XNode.mk (strL "node") [(strL "clickable", strL "true")] [])
            (strL "clickable") = some (strL "true"))
    ∧ (elemOfNode (XNode.mk (strL "node") [(strL "clickable", strL "true")] [])).text
      = stripL (attrD (XNode.mk (strL "node") [(strL "clickable", strL "true")] [])
          (strL "text"))
    ∧ (attrOf (XNode.mk (strL "node") [(strL "clickable", strL "true")] [])
          (strL "text") = none →
        (elemOfNode (XNode.mk (strL "node") [(strL "clickable", strL "true")] [])).text
          = []) :=
  C3_records_in_document_order
    (XNode.mk (strL "hierarchy") []
      [XNode.mk (strL "node") [(strL "clickable", strL "true")] []])
    (XNode.mk (strL "node") [(strL "clickable", strL "true")] []) (by decide)

/-! ## get_packages lemmas -/

theorem splitNl_no_newline : ∀ s : List Char, ¬ '\n' ∈ s → splitNl s = [s] := by
  intro s
  induction s with
  | nil => intro _; rfl
  | cons c cs ih =>
    intro h
    have hc : ¬ c = '\n' := by
      intro hc
      exact h (by rw [hc]; exact List.mem_cons_self '\n' cs)
    have hcs : ¬ '\n' ∈ cs := fun hm => h (List.mem_cons_of_mem c hm)
    simp only [splitNl]
    rw [ih hcs]

/-- C10 counterexample: on the output line `package: package:x ` the code
produces `x` (every occurrence of `package:` removed, whitespace stripped),
not the bare prefix-removal ` package:x ` described by the claim. -/
theorem C10_prefix_removal_cex :
    getPackages (fun _ => ProcResult.ok (strL "package: package:x ")) none = strL "x"
    ∧ stripPkgHeaderSpec (strL "package: package:x ") = strL " package:x "
    ∧ strL "x" ≠ strL " package:x " :=
  ⟨by decide, by decide, by decide⟩

/-- C10 (amended): the list-packages operation propagates the executor output
verbatim iff it starts with `"Error"`; any other output — including an
`"Unexpected Error:"` string, which does not start with `"Error"` — is reduced
to its `package:`-lines, each with every occurrence of `"package:"` removed
and surrounding whitespace stripped, joined by newlines; so an unexpected
executor failure yields an empty package list rather than the error text. -/
theorem C10_error_prefix_asymmetry (runner : Runner) (serial : Option (List Char))
    (e m o : List Char) (hm : ¬ '\n' ∈ m)
    (ho : (strL "Error").isPrefixOf o = false) :
    getPackages (fun _ => ProcResult.fail e) serial = strL "Error: " ++ e
    ∧ getPackages (fun _ => ProcResult.exc m) serial = []
    ∧ getPackages (fun _ => ProcResult.ok o) serial =
        joinNl (((splitNl o).filter (fun l => (strL "package:").isPrefixOf l)).map
          (fun l => stripL (replacePkg l)))
    ∧ ((strL "Error").isPrefixOf (runAdb runner pmListArgs serial) = true →
        getPackages runner serial = runAdb runner pmListArgs serial) := by
  refine ⟨?_, ?_, ?_, ?_⟩
  · have hpre : (strL "Error").isPrefixOf
        (runAdb (fun _ => ProcResult.fail e) pmListArgs serial) = true := by
      show (strL "Error").isPrefixOf (strL "Error" ++ (':' :: ' ' :: e)) = true
      exact isPrefixOf_append_self _ _
    simp only [getPackages]
    rw [hpre]
    rfl
  · have hout : runAdb (fun _ => ProcResult.exc m) pmListArgs serial
        = strL "Unexpected Error: " ++ m := rfl
    have hpre : (strL "Error").isPrefixOf (strL "Unexpected Error: " ++ m) = false := rfl
    have hnl : ¬ '\n' ∈ strL "Unexpected Error: " ++ m := by
      intro hin
      rcases List.mem_append.mp hin with hin1 | hin2
      · exact absurd hin1 (by decide)
      · exact hm hin2
    have hsplit := splitNl_no_newline _ hnl
    simp only [getPackages, hout, hpre]
    rw [hsplit]
    have hline : (strL "package:").isPrefixOf (strL "Unexpected Error: " ++ m) = false := rfl
    simp [List.filter_cons, hline, joinNl]
    rfl
  · have hout : runAdb (fun _ => ProcResult.ok o) pmListArgs serial = o := rfl
    simp only [getPackages, hout]
    rw [ho]
    rfl
  · intro hp
    simp only [getPackages]
    rw [hp]
    rfl

theorem C10_error_prefix_asymmetry_w :
    getPackages (fun _ => ProcResult.fail (strL "no device")) none
        = strL "Error: " ++ strL "no device"
    ∧ getPackages (fun _ => ProcResult.exc (strL "boom")) none = []
    ∧ getPackages (fun _ => ProcResult.ok (strL "package: a")) none =
        joinNl (((splitNl (strL "package: a")).filter
            (fun l => (strL "package:").isPrefixOf l)).map
          (fun l => stripL (replacePkg l)))
    ∧ ((strL "Error").isPrefixOf
          (runAdb (fun _ => ProcResult.fail (strL "no device")) pmListArgs none) = true →
        getPackages (fun _ => ProcResult.fail (strL "no device")) none
          = runAdb (fun _ => ProcResult.fail (strL "no device")) pmListArgs none) :=
  C10_error_prefix_asymmetry (fun _ => ProcResult.fail (strL "no device")) none
    (strL "no device") (strL "boom") (strL "package: a") (by decide) (by decide)

/-- C8: the UI-dump operation performs the two-step file fallback exactly when
the first direct-to-stream attempt both lacks the completion marker and does
not, after trimming, start with `<?xml`; otherwise only the first command is
issued and its output is used. -/
theorem C8_fallback_condition (runner : Runner) (serial : Option (List Char)) :
    ((¬ ∃ a b, a ++ markerTok ++ b = runAdb runner dumpTtyArgs serial) ∧
     (¬ ∃ r, stripL (runAdb runner dumpTtyArgs serial) = xmlTok ++ r) →
      uiDumpRetrieve runner serial =
        ([dumpTtyArgs, dumpFileArgs, catViewArgs], runAdb runner catViewArgs serial))
    ∧ ((∃ a b, a ++ markerTok ++ b = runAdb runner dumpTtyArgs serial) ∨
       (∃ r, stripL (runAdb runner dumpTtyArgs serial) = xmlTok ++ r) →
      uiDumpRetrieve runner serial = ([dumpTtyArgs], runAdb runner dumpTtyArgs serial)) := by
  constructor
  · rintro ⟨h1, h2⟩
    have hb1 : containsTok markerTok (runAdb runner dumpTtyArgs serial) = false := by
      rw [← Bool.not_eq_true, containsTok_iff]
      exact h1
    have hb2 : xmlTok.isPrefixOf (stripL (runAdb runner dumpTtyArgs serial)) = false := by
      rw [← Bool.not_eq_true, isPrefixOf_iff_append]
      rintro ⟨r, hr⟩
      exact h2 ⟨r, hr⟩
    simp [uiDumpRetrieve, hb1, hb2]
  · intro h
    have hb : (!containsTok markerTok (runAdb runner dumpTtyArgs serial)
        && !xmlTok.isPrefixOf (stripL (runAdb runner dumpTtyArgs serial))) = false := by
      rcases h with ⟨a, b, hab⟩ | ⟨r, hr⟩
      · have hc : containsTok markerTok (runAdb runner dumpTtyArgs serial) = true :=
          (containsTok_iff _ _).mpr ⟨a, b, hab⟩
        simp [hc]
      · have hc : xmlTok.isPrefixOf (stripL (runAdb runner dumpTtyArgs serial)) = true :=
          (isPrefixOf_iff_append _ _).mpr ⟨r, hr⟩
        simp [hc]
    simp [uiDumpRetrieve, hb]

theorem C8_fallback_condition_w :
    uiDumpRetrieve (fun _ => ProcResult.ok (strL "junk")) none =
      ([dumpTtyArgs, dumpFileArgs, catViewArgs],
        runAdb (fun _ => ProcResult.ok (strL "junk")) catViewArgs none)
    ∧ uiDumpRetrieve (fun _ => ProcResult.ok (strL "<?xml ok")) none =
      ([dumpTtyArgs], runAdb (fun _ => ProcResult.ok (strL "<?xml ok")) dumpTtyArgs none) := by
  constructor
  · exact (C8_fallback_condition (fun _ => ProcResult.ok (strL "junk")) none).1
      ⟨fun ⟨a, b, hab⟩ => absurd ((containsTok_iff _ _).mpr ⟨a, b, hab⟩) (by decide),
       fun ⟨r, hr⟩ => absurd ((isPrefixOf_iff_append _ _).mpr ⟨r, hr⟩) (by decide)⟩
  · exact (C8_fallback_condition (fun _ => ProcResult.ok (strL "<?xml ok")) none).2
      (Or.inr ⟨strL " ok", by decide⟩)

/-! ## XML cleanup lemmas -/

theorem splitAtSub_eq_some : ∀ pat s b a : List Char,
    splitAtSub pat s = some (b, a) → s = b ++ pat ++ a := by
  intro pat s
  induction s with
  | nil =>
    intro b a h
    simp only [splitAtSub] at h
    split at h
    · rename_i hp
      simp only [Option.some.injEq, Prod.mk.injEq] at h
      obtain ⟨hb, ha⟩ := h
      rw [List.isEmpty_iff] at hp
      subst hp
      rw [← hb, ← ha]
      rfl
    · exact Option.noConfusion h
  | cons c cs ih =>
    intro b a h
    simp only [splitAtSub] at h
    split at h
    · rename_i hp
      simp only [Option.some.injEq, Prod.mk.injEq] at h
      obtain ⟨hb, ha⟩ := h
      obtain ⟨r, hr⟩ := (isPrefixOf_iff_append pat (c :: cs)).mp hp
      subst hb
      rw [List.nil_append, ← ha, hr, List.drop_left]
    · cases hsp : splitAtSub pat cs with
      | none => rw [hsp] at h; exact Option.noConfusion h
      | some pr =>
        obtain ⟨b2, a2⟩ := pr
        rw [hsp] at h
        simp only [Option.some.injEq, Prod.mk.injEq] at h
        obtain ⟨hb, ha⟩ := h
        subst hb
        subst ha
        have hcs := ih b2 a2 hsp
        rw [List.cons_append, List.cons_append, ← hcs]

theorem splitAtSub_isSome : ∀ b pat a : List Char,
    (splitAtSub pat (b ++ pat ++ a)).isSome = true := by
  intro b
  induction b with
  | nil =>
    intro pat a
    rw [List.nil_append]
    cases pat with
    | nil =>
      rw [List.nil_append]
      cases a with
      | nil => rfl
      | cons c cs => simp [splitAtSub, List.isPrefixOf]
    | cons p ps =>
      rw [List.cons_append]
      simp only [splitAtSub]
      have hpre : (p :: ps).isPrefixOf (p :: (ps ++ a)) = true := by
        rw [← List.cons_append]
        exact isPrefixOf_append_self _ _
      simp only [hpre, if_true]
      rfl
  | cons x b' ih =>
    intro pat a
    rw [List.cons_append, List.cons_append]
    simp only [splitAtSub]
    by_cases hp : pat.isPrefixOf (x :: (b' ++ pat ++ a)) = true
    · simp only [hp, if_true]
      rfl
    · rw [Bool.not_eq_true] at hp
      simp only [hp, Bool.false_eq_true, if_false]
      have hrec := ih pat a
      cases hsp : splitAtSub pat (b' ++ pat ++ a) with
      | none => rw [hsp] at hrec; exact absurd hrec (by simp)
      | some pr =>
        obtain ⟨b2, a2⟩ := pr
        rfl

theorem suffix_of_len_le {l1 l2 l3 : List Char} (h1 : l1 <:+ l3) (h2 : l2 <:+ l3)
    (hl : l1.length ≤ l2.length) : l1 <:+ l2 := by
  obtain ⟨a, ha⟩ := h1
  obtain ⟨b, hb⟩ := h2
  have hlen : b.length ≤ a.length := by
    have ha' := congrArg List.length ha
    have hb' := congrArg List.length hb
    simp only [List.length_append] at ha' hb'
    omega
  refine ⟨a.drop b.length, ?_⟩
  have hkey : (a ++ l1).drop b.length = a.drop b.length ++ l1 :=
    List.drop_append_of_le_length hlen
  have hl2 : l2 = (a ++ l1).drop b.length := by
    rw [ha, ← hb, List.drop_left]
  rw [hl2, hkey]

theorem splitAtSub_none_suffix {pat u v : List Char} (h : splitAtSub pat u = none)
    (hv : v <:+ u) : splitAtSub pat v = none := by
  cases hsv : splitAtSub pat v with
  | none => rfl
  | some pr =>
    obtain ⟨b, a⟩ := pr
    have hveq := splitAtSub_eq_some pat v b a hsv
    obtain ⟨w, hw⟩ := hv
    have hsome := splitAtSub_isSome (w ++ b) pat a
    have heq : (w ++ b) ++ pat ++ a = u := by
      rw [← hw, hveq]
      simp [List.append_assoc]
    rw [heq, h] at hsome
    exact absurd hsome (by simp)

theorem splitAtSub_suffix_mono : ∀ (pat u m1 r2 : List Char),
    splitAtSub pat u = some (m1, r2) → ∀ v m1x r2x, v <:+ u →
      splitAtSub pat v = some (m1x, r2x) → r2x <:+ r2 := by
  intro pat u
  induction u with
  | nil =>
    intro m1 r2 hu v m1x r2x hv hvx
    have hv0 : v = [] := List.suffix_nil.mp hv
    subst hv0
    rw [hu] at hvx
    simp only [Option.some.injEq, Prod.mk.injEq] at hvx
    obtain ⟨-, hr⟩ := hvx
    rw [← hr]
  | cons c cs ih =>
    intro m1 r2 hu v m1x r2x hv hvx
    rcases List.suffix_cons_iff.mp hv with hveq | hvs
    · subst hveq
      rw [hu] at hvx
      simp only [Option.some.injEq, Prod.mk.injEq] at hvx
      obtain ⟨-, hr⟩ := hvx
      rw [← hr]
    · simp only [splitAtSub] at hu
      by_cases hp : pat.isPrefixOf (c :: cs) = true
      · simp only [hp, if_true, Option.some.injEq, Prod.mk.injEq] at hu
        obtain ⟨hm1, hr2⟩ := hu
        have hveq2 := splitAtSub_eq_some pat v m1x r2x hvx
        have hr2xv : r2x <:+ v := ⟨m1x ++ pat, hveq2.symm⟩
        have hr2xu : r2x <:+ c :: cs := hr2xv.trans (hvs.trans (List.suffix_cons c cs))
        have hr2u : r2 <:+ c :: cs := by
          rw [← hr2]
          exact List.drop_suffix _ _
        refine suffix_of_len_le hr2xu hr2u ?_
        have hlv : v.length = m1x.length + pat.length + r2x.length := by
          rw [hveq2]
          simp [List.length_append]
          omega
        have hlvcs : v.length ≤ cs.length := hvs.length_le
        have hlr2 : r2.length = cs.length + 1 - pat.length := by
          rw [← hr2]
          simp [List.length_drop]
        omega
      · rw [Bool.not_eq_true] at hp
        simp only [hp, Bool.false_eq_true, if_false] at hu
        cases hsp : splitAtSub pat cs with
        | none => rw [hsp] at hu; exact Option.noConfusion hu
        | some pr =>
          obtain ⟨b2, a2⟩ := pr
          rw [hsp] at hu
          simp only [Option.some.injEq, Prod.mk.injEq] at hu
          obtain ⟨-, hr2⟩ := hu
          rw [← hr2]
          exact ih b2 a2 hsp v m1x r2x hvs hvx

theorem matchTail_none_suffix : ∀ r1 r1x : List Char, r1x <:+ r1 →
    matchTail r1 = none → matchTail r1x = none := by
  intro r1 r1x hs h
  simp only [matchTail] at h ⊢
  split at h
  · rename_i m1 r2 heq1
    split at h
    · exact Option.noConfusion h
    · rename_i heq2
      split
      · rename_i m1x r2x heq3
        have hsfx : r2x <:+ r2 :=
          splitAtSub_suffix_mono ['>'] r1 m1 r2 heq1 r1x m1x r2x hs heq3
        rw [splitAtSub_none_suffix heq2 hsfx]
      · rfl
  · rename_i heq1
    split
    · rename_i m1x r2x heq3
      have hnone := splitAtSub_none_suffix heq1 hs
      rw [heq3] at hnone
      exact Option.noConfusion hnone
    · rfl

theorem tryMatchAt_none_suffix : ∀ t v : List Char, v <:+ t →
    xmlTok.isPrefixOf t = true → tryMatchAt t = none → tryMatchAt v = none := by
  intro t v hv hp h
  by_cases hpv : xmlTok.isPrefixOf v = true
  · obtain ⟨w, hw⟩ := hv
    have hv5 : v.drop 5 = (t.drop 5).drop w.length := by
      calc v.drop 5 = ((w ++ v).drop w.length).drop 5 := by rw [List.drop_left]
        _ = (w ++ v).drop (w.length + 5) := List.drop_drop 5 w.length (w ++ v)
        _ = ((w ++ v).drop 5).drop w.length := by
              rw [List.drop_drop w.length 5 (w ++ v), Nat.add_comm w.length 5]
        _ = (t.drop 5).drop w.length := by rw [hw]
    have hdrop : v.drop 5 <:+ t.drop 5 := by
      rw [hv5]
      exact List.drop_suffix _ _
    simp only [tryMatchAt, hp, if_true] at h
    simp only [tryMatchAt, hpv, if_true]
    exact matchTail_none_suffix (t.drop 5) (v.drop 5) hdrop h
  · rw [Bool.not_eq_true] at hpv
    simp only [tryMatchAt, hpv, Bool.false_eq_true, if_false]

theorem reSearch_none_of : ∀ u : List Char,
    (∀ v, v <:+ u → tryMatchAt v = none) → reSearch u = none := by
  intro u
  induction u with
  | nil => intro _; rfl
  | cons c cs ih =>
    intro h
    simp only [reSearch]
    rw [h (c :: cs) (List.suffix_refl _)]
    exact ih fun v hv => h v (hv.trans (List.suffix_cons c cs))

theorem reSearch_eq_lazy : ∀ s : List Char, reSearch s = lazyExtractSpec s := by
  intro s
  induction s with
  | nil => rfl
  | cons c cs ih =>
    by_cases hp : xmlTok.isPrefixOf (c :: cs) = true
    · have hsp : splitAtSub xmlTok (c :: cs) = some ([], (c :: cs).drop 5) := by
        simp only [splitAtSub, hp, if_true]
        rfl
      have hlazy : lazyExtractSpec (c :: cs) = matchTail ((c :: cs).drop 5) := by
        simp only [lazyExtractSpec, hsp]
      have htry : tryMatchAt (c :: cs) = matchTail ((c :: cs).drop 5) := by
        simp only [tryMatchAt, hp, if_true]
      simp only [reSearch]
      cases hm : tryMatchAt (c :: cs) with
      | some m =>
        rw [hlazy, ← htry, hm]
      | none =>
        rw [hlazy, ← htry, hm]
        show reSearch cs = none
        exact reSearch_none_of cs fun v hv =>
          tryMatchAt_none_suffix (c :: cs) v (hv.trans (List.suffix_cons c cs)) hp hm
    · rw [Bool.not_eq_true] at hp
      have hnone : tryMatchAt (c :: cs) = none := by
        simp only [tryMatchAt, hp, Bool.false_eq_true, if_false]
      have hstep : lazyExtractSpec (c :: cs) = lazyExtractSpec cs := by
        simp only [lazyExtractSpec, splitAtSub, hp, Bool.false_eq_true, if_false]
        cases hsp : splitAtSub xmlTok cs with
        | none => rfl
        | some pr =>
          obtain ⟨b, a⟩ := pr
          rfl
      simp only [reSearch]
      rw [hnone, hstep]
      exact ih

/-- C1 (amended): the UI-dump cleanup isolates the substring beginning at the
first `<?xml` declaration and ending at the first subsequent `</hierarchy>`
tag — a lazy (minimal) match: the first `</hierarchy>` after the first `>`
that closes the declaration — ignoring leading and trailing noise; when no
such bounded substring exists the raw text is parsed unchanged. -/
theorem C1_lazy_extraction (s : List Char) :
    cleanXml s = (lazyExtractSpec s).getD s := by
  unfold cleanXml
  rw [reSearch_eq_lazy]

/-- C1 counterexample: on a dump containing two `</hierarchy>` occurrences the
code keeps the lazy match ending at the first closing tag; the claimed
greedy/maximal match (whole text here, which runs from its first `<?xml` to
its last `</hierarchy>`) differs. -/
theorem C1_greedy_cex :
    cleanXml (strL "<?xml?><hierarchy></hierarchy>x</hierarchy>")
        = strL "<?xml?><hierarchy></hierarchy>"
    ∧ cleanXml (strL "<?xml?><hierarchy></hierarchy>x</hierarchy>")
        ≠ strL "<?xml?><hierarchy></hierarchy>x</hierarchy>" :=
  ⟨by decide, by decide⟩
